import Mathlib

/-!
# Extent-map enumeration (fiemap.go)

A shallow embedding of `src/fiemap.go`: the constants, the two kernel records
(`fiemap` header and `Extent`), the single-call primitive `FiemapFile.fiemap`
with its header/extent overlay buffer, the pagination loop `FiemapFile.FieMap`,
and the two range mutators `Fallocate` and `PunchHole`.

Machine integers are natural numbers; `uint64` and `uint32` arithmetic is
written with an explicit reduction modulo `2^64` or `2^32`.  The host kernel
(`ioctl`, `fallocate`) is a parameter: a function on an explicit world state.
The loop of `FieMap` has no bound in the source, so the embedding takes a fuel
argument counting loop-body executions; a run that exhausts its fuel has no
result (`none`).
-/

namespace Fiemap

/-! ## Constants (fiemap.go lines 10-47) -/

/-- Go constant `FiemapSize`: sizeof(struct fiemap). -/
def FiemapSize : Nat := 32

/-- Go constant `ExtentSize`: sizeof(struct Extent). -/
def ExtentSize : Nat := 56

/-- Go constant `FS_IOC_FIEMAP`, the ioctl request code. -/
def FS_IOC_FIEMAP : Nat := 3223348747

/-- Go constant `FIEMAP_MAX_OFFSET = ^uint64(0)`. -/
def FIEMAP_MAX_OFFSET : Nat := 2 ^ 64 - 1

/-- Go constant `FIEMAP_FLAG_SYNC`. -/
def FIEMAP_FLAG_SYNC : Nat := 0x0001

/-- Go constant `FIEMAP_EXTENT_LAST`. -/
def FIEMAP_EXTENT_LAST : Nat := 0x0001

/-- Go constant `FALLOC_FL_KEEP_SIZE`. -/
def FALLOC_FL_KEEP_SIZE : Nat := 0x01

/-- Go constant `FALLOC_FL_PUNCH_HOLE`. -/
def FALLOC_FL_PUNCH_HOLE : Nat := 0x02

/-- Go constant `FALLOC_FL_NO_HIDE_STAE`. -/
def FALLOC_FL_NO_HIDE_STAE : Nat := 0x04

/-! ## Machine arithmetic -/

/-- Go `a + b` on `uint64`. -/
def u64add (a b : Nat) : Nat := (a + b) % 2 ^ 64

/-- Go `a - b` on `uint64` (wraps around below zero). -/
def u64sub (a b : Nat) : Nat := (a + (2 ^ 64 - b % 2 ^ 64)) % 2 ^ 64

/-- Go `a + b` on `uint32`. -/
def u32add (a b : Nat) : Nat := (a + b) % 2 ^ 32

/-! ## Records (fiemap.go lines 49-73) -/

/-- Go `type fiemap struct`: the request header. -/
structure fiemap where
  Start : Nat
  Length : Nat
  Flags : Nat
  MappedExtents : Nat
  ExtentCount : Nat
  Reserved : Nat
deriving DecidableEq

/-- Go `type Extent struct`; the arrays `[2]uint64` and `[3]uint32` are tuples. -/
structure Extent where
  Logical : Nat
  Physical : Nat
  Length : Nat
  Reserved64 : Nat × Nat
  Flags : Nat
  Reserved : Nat × Nat × Nat
deriving DecidableEq

/-- Go `type FiemapFile struct { *os.File }`; only the descriptor `f.Fd()`, a
`uintptr`, is used. -/
structure FiemapFile where
  Fd : Nat
deriving DecidableEq

/-- The zero value of `Extent`, as produced by `make([]Extent, n)`. -/
def Extent.zero : Extent := ⟨0, 0, 0, (0, 0), 0, (0, 0, 0)⟩

/-! ## Struct layout

Go lays the fields of a struct out in declaration order, each at the next
multiple of its alignment, and rounds the size up to the largest alignment. -/

/-- The Go field types that occur in the two records. -/
inductive GoType where
  | uint32 : GoType
  | uint64 : GoType
  | array : Nat → GoType → GoType
deriving DecidableEq

/-- Width in bytes of a value of the type. -/
def GoType.size : GoType → Nat
  | .uint32 => 4
  | .uint64 => 8
  | .array n t => n * t.size

/-- Alignment in bytes of the type (linux/amd64). -/
def GoType.align : GoType → Nat
  | .uint32 => 4
  | .uint64 => 8
  | .array _ t => t.align

/-- Round `n` up to a multiple of `a`. -/
def alignUp (n a : Nat) : Nat := (n + a - 1) / a * a

/-- Byte offsets of the fields, laid out from offset `pos`. -/
def fieldOffsets : Nat → List GoType → List Nat
  | _, [] => []
  | pos, t :: ts => alignUp pos t.align :: fieldOffsets (alignUp pos t.align + t.size) ts

/-- Offset one past the final field, laid out from offset `pos`. -/
def fieldsEnd : Nat → List GoType → Nat
  | pos, [] => pos
  | pos, t :: ts => fieldsEnd (alignUp pos t.align + t.size) ts

/-- The size of a struct with the given fields (`unsafe.Sizeof`). -/
def structSize (fields : List GoType) : Nat :=
  alignUp (fieldsEnd 0 fields) ((fields.map GoType.align).foldl max 1)

/-- Field types of `type fiemap struct`, in declaration order. -/
def fiemapFields : List GoType :=
  [.uint64, .uint64, .uint32, .uint32, .uint32, .uint32]

/-- Field types of `type Extent struct`, in declaration order. -/
def extentFields : List GoType :=
  [.uint64, .uint64, .uint64, .array 2 .uint64, .uint32, .array 3 .uint32]

/-- Local `numExts := 250` of `FiemapFile.fiemap`. -/
def numExts : Nat := 250

/-- Byte offset of `ptr` inside `extBuf`: `ExtentSize - FiemapSize` past slot 0. -/
def headerOffset : Nat := ExtentSize - FiemapSize

/-! ## Results -/

/-- A `syscall.Errno`; zero means success. -/
abbrev Errno := Nat

/-- How a call of `fiemap` or `FieMap` ends: `ok exts` is `return exts, nil`,
`fail e` is `return nil, err`, and `panic` is a Go run-time panic. -/
inductive Result where
  | ok : List Extent → Result
  | fail : Errno → Result
  | panic : Result
deriving DecidableEq

/-- The `[]Extent` component of the returned pair; `none` is the nil slice. -/
def Result.extents : Result → Option (List Extent)
  | .ok exts => some exts
  | .fail _ => none
  | .panic => none

/-- The `error` component of the returned pair; `none` is the nil error. -/
def Result.err : Result → Option Errno
  | .ok _ => none
  | .fail e => some e
  | .panic => none

/-! ## The single-call primitive (fiemap.go lines 104-122) -/

/-- The extent buffer `extBuf`: `numExts + 1` slots of `Extent`. -/
abbrev ExtBuf := { l : List Extent // l.length = numExts + 1 }

/-- The header seen through `t := (*fiemap)(ptr)`.  With `ptr` at byte 24 of
slot 0 the six header fields lie over `Reserved64[0]`, `Reserved64[1]`, `Flags`,
`Reserved[0]`, `Reserved[1]` and `Reserved[2]` of that slot. -/
def readHeader (slot0 : Extent) : fiemap :=
  { Start := slot0.Reserved64.1
    Length := slot0.Reserved64.2
    Flags := slot0.Flags
    MappedExtents := slot0.Reserved.1
    ExtentCount := slot0.Reserved.2.1
    Reserved := slot0.Reserved.2.2 }

/-- Store a header through `t`: the overlaid fields of slot 0 change, the first
24 bytes (`Logical`, `Physical`, `Length`) do not. -/
def writeHeader (slot0 : Extent) (t : fiemap) : Extent :=
  { slot0 with
    Reserved64 := (t.Start, t.Length)
    Flags := t.Flags
    Reserved := (t.MappedExtents, t.ExtentCount, t.Reserved) }

/-- The buffer as `fiemap` hands it to the kernel: `make([]Extent, numExts+1)`
with `Start`, `Length`, `Flags` and `ExtentCount` stored through `t`. -/
def requestBuf (start length : Nat) : ExtBuf :=
  ⟨writeHeader Extent.zero
      { readHeader Extent.zero with
        Start := start
        Length := length
        Flags := FIEMAP_FLAG_SYNC
        ExtentCount := numExts % 2 ^ 32 }
    :: List.replicate numExts Extent.zero, by simp⟩

/-- The header `*t` of a buffer: the overlay view of its slot 0. -/
def headerOf (extBuf : ExtBuf) : fiemap := readHeader (extBuf.1.headD Extent.zero)

/-- The host `ioctl`: from the world state, the descriptor, the request code
and the buffer at `ptr` to the errno, the buffer afterwards and the new state. -/
abbrev Ioctl (σ : Type) := σ → Nat → Nat → ExtBuf → Errno × ExtBuf × σ

/-- Go `extBuf[1 : 1+t.MappedExtents]` on a buffer of capacity `numExts + 1`:
the bound is computed in `uint32`, and the slice expression panics unless
`1 ≤ high ≤ cap`. -/
def sliceResult (extBuf : ExtBuf) : Result :=
  let t := headerOf extBuf
  let high := u32add 1 t.MappedExtents
  if 1 ≤ high ∧ high ≤ numExts + 1 then .ok ((extBuf.1.drop 1).take (high - 1))
  else .panic

/-- Go `func (f FiemapFile) fiemap(start uint64, length uint64) ([]Extent, error)`. -/
def FiemapFile.fiemap {σ : Type} (ioctl : Ioctl σ) (f : FiemapFile) (s : σ)
    (start length : Nat) : Result × σ :=
  match ioctl s f.Fd FS_IOC_FIEMAP (requestBuf start length) with
  | (err, extBuf, s') =>
    if err ≠ 0 then (.fail err, s')
    else (sliceResult extBuf, s')

/-! ## The pagination loop (fiemap.go lines 80-102) -/

/-- A query primitive: what `FieMap` calls as `f.fiemap(offset, length)`. -/
abbrev Query (σ : Type) := σ → Nat → Nat → Result × σ

/-- One recorded call of the primitive: its arguments and what it returned. -/
structure Call where
  start : Nat
  length : Nat
  result : Result
deriving DecidableEq

/-- The outcome of running `FieMap`: the result (`none` when the fuel ran out
with the loop still going), the calls made in order, and the final state. -/
structure Run (σ : Type) where
  result : Option Result
  calls : List Call
  state : σ

/-- Go test `FIEMAP_EXTENT_LAST&exts[i].Flags == FIEMAP_EXTENT_LAST`. -/
def isLast (e : Extent) : Bool := FIEMAP_EXTENT_LAST &&& e.Flags == FIEMAP_EXTENT_LAST

/-- The inner loop `for i := range exts` over the loop variables
`(isEof, offset, length)`. -/
def scanExtents : List Extent → Bool × Nat × Nat → Bool × Nat × Nat
  | [], v => v
  | e :: es, (isEof, offset, length) =>
    scanExtents es (if isLast e then true else isEof, u64add offset e.Length,
      u64sub length e.Length)

/-- The outer loop `for !isEof`, over `(isEof, offset, length, extents)`; the
first argument bounds the number of loop-body executions. -/
def FieMapLoop {σ : Type} (q : Query σ) :
    Nat → σ → Bool → Nat → Nat → List Extent → List Call → Run σ
  | _, s, true, _, _, extents, calls => ⟨some (.ok extents), calls, s⟩
  | 0, s, false, _, _, _, calls => ⟨none, calls, s⟩
  | fuel + 1, s, false, offset, length, extents, calls =>
    match q s offset length with
    | (.fail err, s') => ⟨some (.fail err), calls ++ [⟨offset, length, .fail err⟩], s'⟩
    | (.panic, s') => ⟨some .panic, calls ++ [⟨offset, length, .panic⟩], s'⟩
    | (.ok exts, s') =>
      match scanExtents exts (false, offset, length) with
      | (isEof, offset', length') =>
        FieMapLoop q fuel s' isEof offset' length' (extents ++ exts)
          (calls ++ [⟨offset, length, .ok exts⟩])

/-- Go `func (f FiemapFile) FieMap(offset, length uint64) ([]Extent, error)`,
over the primitive `q` it calls. -/
def FieMapWith {σ : Type} (q : Query σ) (fuel : Nat) (s : σ) (offset length : Nat) : Run σ :=
  FieMapLoop q fuel s false offset (if length = 0 then FIEMAP_MAX_OFFSET else length) [] []

/-- The method `FieMap` of the source: `FieMapWith` over `f.fiemap`. -/
def FiemapFile.FieMap {σ : Type} (ioctl : Ioctl σ) (f : FiemapFile) (fuel : Nat) (s : σ)
    (offset length : Nat) : Run σ :=
  FieMapWith (f.fiemap ioctl) fuel s offset length

/-! ## Range mutators (fiemap.go lines 124-132) -/

/-- Go conversion `int(x)` of a `uintptr` (linux/amd64, both 64 bits wide): the
same bit pattern read in two's complement. -/
def uintptrToInt (x : Nat) : Int :=
  if x % 2 ^ 64 < 2 ^ 63 then ((x % 2 ^ 64 : Nat) : Int) else ((x % 2 ^ 64 : Nat) : Int) - 2 ^ 64

/-- The host `syscall.Fallocate(fd, mode, off, len)`: `none` is the nil error. -/
abbrev FallocateSys (σ : Type) := σ → Int → Nat → Int → Int → Option Errno × σ

/-- Go `func (f FiemapFile) Fallocate(offset int64, length int64) error`. -/
def FiemapFile.Fallocate {σ : Type} (sys : FallocateSys σ) (f : FiemapFile) (s : σ)
    (offset length : Int) : Option Errno × σ :=
  sys s (uintptrToInt f.Fd) 0 offset length

/-- Go `func (f FiemapFile) PunchHole(offset int64, length int64) error`. -/
def FiemapFile.PunchHole {σ : Type} (sys : FallocateSys σ) (f : FiemapFile) (s : σ)
    (offset length : Int) : Option Errno × σ :=
  sys s (uintptrToInt f.Fd) (FALLOC_FL_KEEP_SIZE ||| FALLOC_FL_PUNCH_HOLE) offset length

/-! ## Specification-side notions -/

/-- Total length of a batch of extents. -/
def sumLen (exts : List Extent) : Nat := (exts.map Extent.Length).sum

/-- Some extent of the batch has the `FIEMAP_EXTENT_LAST` bit (bit 0) set. -/
def hasLast (b : List Extent) : Prop := ∃ e ∈ b, e.Flags.testBit 0 = true

instance (b : List Extent) : Decidable (hasLast b) := by unfold hasLast; infer_instance

/-- The start expected for call number `i` (counted from 0) when the earlier
calls returned the batches of `batches`. -/
def startAt (offset : Nat) (batches : List (List Extent)) (i : Nat) : Nat :=
  (offset + sumLen (batches.take i).flatten) % 2 ^ 64

/-- The length expected for call number `i` (counted from 0). -/
def lengthAt (length : Nat) (batches : List (List Extent)) (i : Nat) : Nat :=
  (length + (2 ^ 64 - sumLen (batches.take i).flatten % 2 ^ 64)) % 2 ^ 64

/-- The record of the first `n` calls when they return `batches`. -/
def callsAt (offset length : Nat) (batches : List (List Extent)) (n : Nat) : List Call :=
  (List.range n).map fun i =>
    ⟨startAt offset batches i, lengthAt length batches i, .ok (batches.getD i [])⟩

/-- The primitive answers the first `n` calls of an enumeration from
`(offset, length)` with the batches of `batches`, passing through the states
`st 0, st 1, ...`. -/
def Answers {σ : Type} (q : Query σ) (st : Nat → σ) (offset length : Nat)
    (batches : List (List Extent)) (n : Nat) : Prop :=
  ∀ i, i < n → q (st i) (startAt offset batches i) (lengthAt length batches i)
    = (.ok (batches.getD i []), st (i + 1))

/-- Call `c2` is made with the arguments of call `c1` advanced by the extents
`c1` returned, in 64-bit unsigned arithmetic. -/
def Advances (c1 c2 : Call) : Prop :=
  ∀ exts, c1.result = .ok exts →
    c2.start = (c1.start + sumLen exts) % 2 ^ 64
      ∧ c2.length = (c1.length + (2 ^ 64 - sumLen exts % 2 ^ 64)) % 2 ^ 64

/-- Every recorded call advances from the one before it. -/
def Chained (l : List Call) : Prop :=
  ∀ i c1 c2, l[i]? = some c1 → l[i + 1]? = some c2 → Advances c1 c2

/-- The batch a recorded call returned; none when the call failed or panicked. -/
def batchOf (c : Call) : List Extent :=
  match c.result with
  | .ok b => b
  | .fail _ => []
  | .panic => []

/-- The record `calls` is that of a run which has returned `r`: every call but
the final one returned a batch without the last flag, and the final call
either returned a batch with the last flag, `r` being all the batches in call
order, or failed, `r` being its error, or panicked, `r` being the panic. -/
def Ended (calls : List Call) (r : Result) : Prop :=
  ∃ pre c, calls = pre ++ [c]
    ∧ (∀ x ∈ pre, ∃ b, x.result = .ok b ∧ ¬ hasLast b)
    ∧ ((∃ b, c.result = .ok b ∧ hasLast b ∧ r = .ok ((calls.map batchOf).flatten))
        ∨ (∃ e, c.result = .fail e ∧ r = .fail e)
        ∨ (c.result = .panic ∧ r = .panic))

/-- The length `FieMap` starts its loop with. -/
def firstLength (length : Nat) : Nat := if length = 0 then FIEMAP_MAX_OFFSET else length

/-! ## Concrete primitives used to exercise the theorems -/

/-- A 4096-byte unwritten extent at logical offset 0, not the last one. -/
def extA : Extent := ⟨0, 1048576, 4096, (0, 0), 0x0800, (0, 0, 0)⟩

/-- A 4096-byte extent at logical offset 4096 carrying the last flag among others. -/
def extB : Extent := ⟨4096, 2097152, 4096, (0, 0), 0x0801, (0, 0, 0)⟩

/-- A primitive whose state counts the calls: the first call returns `[extA]`,
every later call returns `[extB]`. -/
def twoCalls : Query Nat := fun n _ _ => (if n = 0 then .ok [extA] else .ok [extB], n + 1)

/-- A primitive whose first call returns `[extA]` and whose later calls fail
with errno 22 (EINVAL). -/
def thenFails : Query Nat := fun n _ _ => (if n = 0 then .ok [extA] else .fail 22, n + 1)

/-- A primitive whose first call returns no extent and whose later calls return `[extB]`. -/
def emptyThenLast : Query Nat := fun n _ _ => (if n = 0 then .ok [] else .ok [extB], n + 1)

/-- A primitive that returns no extent and no error on every call (an empty file). -/
def alwaysEmpty : Query Unit := fun _ _ _ => (.ok [], ())

/-- A third extent, for the kernel below. -/
def extC : Extent := ⟨8192, 3145728, 4096, (0, 0), 0x0001, (0, 0, 0)⟩

/-- A kernel that reports three mapped extents, written to slots 1, 2 and 3
of the buffer, and leaves a marker in the first 24 bytes of slot 0. -/
def threeExtents : Ioctl Unit := fun _ _ _ extBuf =>
  (0, ⟨{ writeHeader (extBuf.1.headD Extent.zero)
          { headerOf extBuf with MappedExtents := 3 } with Logical := 7 }
        :: extA :: extB :: extC :: List.replicate 247 Extent.zero,
      by simp only [List.length_cons, List.length_replicate, numExts]⟩, ())

/-- A kernel that rejects every request with errno 25 (ENOTTY) and leaves the
buffer as it is. -/
def notSupported : Ioctl Unit := fun _ _ _ extBuf => (25, extBuf, ())

/-- A host `fallocate` that records the arguments of the call in the state. -/
def recordFallocate : FallocateSys (List (Int × Nat × Int × Int)) :=
  fun s fd mode offset length => (none, s ++ [(fd, mode, offset, length)])

/-! ## Lemmas -/

theorem isLast_iff (e : Extent) : isLast e = true ↔ e.Flags.testBit 0 = true := by
  unfold isLast FIEMAP_EXTENT_LAST
  rw [Nat.land_comm, Nat.and_one_is_mod, Nat.testBit_zero]
  simp

theorem any_isLast_iff (b : List Extent) : b.any isLast = true ↔ hasLast b := by
  simp [hasLast, List.any_eq_true, isLast_iff]

theorem sumLen_append (a b : List Extent) : sumLen (a ++ b) = sumLen a + sumLen b := by
  simp [sumLen]

theorem flatten_take_succ (bs : List (List Extent)) (n : Nat) :
    (bs.take (n + 1)).flatten = (bs.take n).flatten ++ bs.getD n [] := by
  rw [List.take_succ, List.flatten_append, List.getD_eq_getElem?_getD]
  cases bs[n]? <;> simp

theorem startAt_zero (offset : Nat) (bs : List (List Extent)) (h : offset < 2 ^ 64) :
    startAt offset bs 0 = offset := by
  simp only [startAt, sumLen, List.take_zero, List.flatten_nil, List.map_nil, List.sum_nil]
  omega

theorem lengthAt_zero (length : Nat) (bs : List (List Extent)) (h : length < 2 ^ 64) :
    lengthAt length bs 0 = length := by
  simp only [lengthAt, sumLen, List.take_zero, List.flatten_nil, List.map_nil, List.sum_nil]
  omega

theorem startAt_succ (offset : Nat) (bs : List (List Extent)) (n : Nat) :
    startAt offset bs (n + 1) = (startAt offset bs n + sumLen (bs.getD n [])) % 2 ^ 64 := by
  simp only [startAt, flatten_take_succ, sumLen_append]
  omega

theorem lengthAt_succ (length : Nat) (bs : List (List Extent)) (n : Nat) :
    lengthAt length bs (n + 1)
      = (lengthAt length bs n + (2 ^ 64 - sumLen (bs.getD n []) % 2 ^ 64)) % 2 ^ 64 := by
  simp only [lengthAt, flatten_take_succ, sumLen_append]
  omega

theorem startAt_lt (offset : Nat) (bs : List (List Extent)) (n : Nat) :
    startAt offset bs n < 2 ^ 64 := Nat.mod_lt _ (by norm_num)

theorem lengthAt_lt (length : Nat) (bs : List (List Extent)) (n : Nat) :
    lengthAt length bs n < 2 ^ 64 := Nat.mod_lt _ (by norm_num)

theorem callsAt_succ (offset length : Nat) (bs : List (List Extent)) (n : Nat) :
    callsAt offset length bs (n + 1) = callsAt offset length bs n
      ++ [⟨startAt offset bs n, lengthAt length bs n, .ok (bs.getD n [])⟩] := by
  simp [callsAt, List.range_succ]

theorem callsAt_length (offset length : Nat) (bs : List (List Extent)) (n : Nat) :
    (callsAt offset length bs n).length = n := by
  simp [callsAt]

theorem firstLength_lt (length : Nat) (h : length < 2 ^ 64) : firstLength length < 2 ^ 64 := by
  unfold firstLength FIEMAP_MAX_OFFSET
  split <;> omega

/-- The flag computed by the inner loop. -/
theorem scanExtents_isEof (exts : List Extent) (b : Bool) (offset length : Nat) :
    (scanExtents exts (b, offset, length)).1 = (b || exts.any isLast) := by
  induction exts generalizing b offset length with
  | nil => simp [scanExtents]
  | cons e es ih =>
    rw [scanExtents, ih]
    cases h : isLast e <;> cases b <;> simp [h]

/-- The offset and length computed by the inner loop. -/
theorem scanExtents_args (exts : List Extent) (b : Bool) (offset length : Nat)
    (ho : offset < 2 ^ 64) (hl : length < 2 ^ 64) :
    (scanExtents exts (b, offset, length)).2
      = ((offset + sumLen exts) % 2 ^ 64, (length + (2 ^ 64 - sumLen exts % 2 ^ 64)) % 2 ^ 64) := by
  induction exts generalizing b offset length with
  | nil =>
    simp only [scanExtents, sumLen, List.map_nil, List.sum_nil]
    refine Prod.ext ?_ ?_ <;> simp only <;> omega
  | cons e es ih =>
    rw [scanExtents, ih _ (u64add offset e.Length) (u64sub length e.Length)
      (by unfold u64add; omega) (by unfold u64sub; omega)]
    simp only [u64add, u64sub, sumLen, List.map_cons, List.sum_cons]
    refine Prod.ext ?_ ?_ <;> simp only <;> omega

theorem FieMapLoop_eof {σ : Type} (q : Query σ) (fuel : Nat) (s : σ) (offset length : Nat)
    (extents : List Extent) (calls : List Call) :
    FieMapLoop q fuel s true offset length extents calls = ⟨some (.ok extents), calls, s⟩ := by
  cases fuel <;> rfl

/-- One execution of the loop body when the call succeeds. -/
theorem FieMapLoop_ok {σ : Type} (q : Query σ) (fuel : Nat) (s s' : σ) (offset length : Nat)
    (extents exts : List Extent) (calls : List Call)
    (ho : offset < 2 ^ 64) (hl : length < 2 ^ 64)
    (hq : q s offset length = (.ok exts, s')) :
    FieMapLoop q (fuel + 1) s false offset length extents calls
      = FieMapLoop q fuel s' (exts.any isLast) ((offset + sumLen exts) % 2 ^ 64)
          ((length + (2 ^ 64 - sumLen exts % 2 ^ 64)) % 2 ^ 64) (extents ++ exts)
          (calls ++ [⟨offset, length, .ok exts⟩]) := by
  have h1 := scanExtents_isEof exts false offset length
  have h2 := scanExtents_args exts false offset length ho hl
  rw [FieMapLoop, hq]
  simp only
  rcases hsc : scanExtents exts (false, offset, length) with ⟨b, o, l⟩
  rw [hsc] at h1 h2
  simp only [Bool.false_or, Prod.mk.injEq] at h1 h2
  simp only [h1, h2.1, h2.2]

/-- One execution of the loop body when the call fails. -/
theorem FieMapLoop_fail {σ : Type} (q : Query σ) (fuel : Nat) (s s' : σ) (offset length : Nat)
    (extents : List Extent) (calls : List Call) (e : Errno)
    (hq : q s offset length = (.fail e, s')) :
    FieMapLoop q (fuel + 1) s false offset length extents calls
      = ⟨some (.fail e), calls ++ [⟨offset, length, .fail e⟩], s'⟩ := by
  rw [FieMapLoop, hq]

/-- The loop runs through `n` answered calls none of which carries the last flag. -/
theorem FieMapLoop_steps {σ : Type} (q : Query σ) (st : Nat → σ) (offset length : Nat)
    (bs : List (List Extent)) (n : Nat)
    (hq : Answers q st offset length bs n)
    (hno : ∀ i, i < n → ¬ hasLast (bs.getD i []))
    (fuel : Nat) (extents : List Extent) (calls : List Call) :
    FieMapLoop q (fuel + n) (st 0) false (startAt offset bs 0) (lengthAt length bs 0)
        extents calls
      = FieMapLoop q fuel (st n) false (startAt offset bs n) (lengthAt length bs n)
          (extents ++ (bs.take n).flatten) (calls ++ callsAt offset length bs n) := by
  induction n generalizing fuel with
  | zero => simp [callsAt]
  | succ n ih =>
    have hq' : Answers q st offset length bs n := fun i hi => hq i (Nat.lt_succ_of_lt hi)
    have hno' : ∀ i, i < n → ¬ hasLast (bs.getD i []) := fun i hi => hno i (Nat.lt_succ_of_lt hi)
    have := ih hq' hno' (fuel + 1)
    rw [show fuel + (n + 1) = fuel + 1 + n by omega, this,
      FieMapLoop_ok q fuel (st n) (st (n + 1)) _ _ _ _ _ (startAt_lt _ _ _) (lengthAt_lt _ _ _)
        (hq n (Nat.lt_succ_self n))]
    have hb : (bs.getD n []).any isLast = false := by
      rw [Bool.eq_false_iff, Ne, any_isLast_iff]
      exact hno n (Nat.lt_succ_self n)
    rw [hb, ← startAt_succ, ← lengthAt_succ, flatten_take_succ, callsAt_succ, List.append_assoc,
      List.append_assoc]

/-- The loop only ever appends to the record of calls. -/
theorem FieMapLoop_calls_append {σ : Type} (q : Query σ) (fuel : Nat) (s : σ) (b : Bool)
    (offset length : Nat) (extents : List Extent) (calls : List Call) :
    ∃ l, (FieMapLoop q fuel s b offset length extents calls).calls = calls ++ l := by
  induction fuel generalizing s b offset length extents calls with
  | zero => cases b <;> exact ⟨[], by simp [FieMapLoop]⟩
  | succ fuel ih =>
    cases b with
    | true => exact ⟨[], by simp [FieMapLoop]⟩
    | false =>
      rw [FieMapLoop]
      rcases hq : q s offset length with ⟨r, s'⟩
      cases r with
      | fail e => exact ⟨_, rfl⟩
      | panic => exact ⟨_, rfl⟩
      | ok exts =>
        simp only
        rcases scanExtents exts (false, offset, length) with ⟨b', o', l'⟩
        obtain ⟨l, hl⟩ := ih s' b' o' l' (extents ++ exts)
          (calls ++ [⟨offset, length, .ok exts⟩])
        exact ⟨⟨offset, length, .ok exts⟩ :: l, by simp only [hl, List.append_assoc, List.singleton_append]⟩

/-- When the loop body runs, the next recorded call is the one made with the
current offset and length. -/
theorem FieMapLoop_next_call {σ : Type} (q : Query σ) (fuel : Nat) (s : σ)
    (offset length : Nat) (extents : List Extent) (calls : List Call) :
    (FieMapLoop q (fuel + 1) s false offset length extents calls).calls[calls.length]?
      = some ⟨offset, length, (q s offset length).1⟩ := by
  rw [FieMapLoop]
  rcases hq : q s offset length with ⟨r, s'⟩
  cases r with
  | fail e => simp
  | panic => simp
  | ok exts =>
    simp only
    rcases scanExtents exts (false, offset, length) with ⟨b', o', l'⟩
    obtain ⟨l, hl⟩ := FieMapLoop_calls_append q fuel s' b' o' l' (extents ++ exts)
      (calls ++ [⟨offset, length, .ok exts⟩])
    rw [hl, List.append_assoc, List.getElem?_append_right (Nat.le_refl _)]
    simp

theorem Chained_nil : Chained [] := by
  intro i c c' h
  simp at h

theorem Chained_concat (l : List Call) (c : Call) (hl : Chained l)
    (hc : ∀ x, l.getLast? = some x → Advances x c) : Chained (l ++ [c]) := by
  intro i a b ha hb
  rcases Nat.lt_trichotomy (i + 1) l.length with h | h | h
  · rw [List.getElem?_append_left (by omega)] at ha
    rw [List.getElem?_append_left h] at hb
    exact hl i a b ha hb
  · rw [List.getElem?_append_left (by omega)] at ha
    rw [List.getElem?_append_right (by omega)] at hb
    have hb' : b = c := by simpa [h] using hb.symm
    subst hb'
    apply hc
    rw [List.getLast?_eq_getElem?, ← ha]
    congr 1
    omega
  · rw [List.getElem?_append_right (by omega)] at hb
    have : i + 1 - l.length ≠ 0 := by omega
    rcases hk : i + 1 - l.length with _ | k
    · omega
    · rw [hk] at hb
      simp at hb

/-- The record of calls stays chained along the loop. -/
theorem FieMapLoop_chained {σ : Type} (q : Query σ) (fuel : Nat) (s : σ) (b : Bool)
    (offset length : Nat) (extents : List Extent) (calls : List Call)
    (ho : offset < 2 ^ 64) (hl : length < 2 ^ 64) (hch : Chained calls)
    (hlast : b = false → ∀ x, calls.getLast? = some x → ∀ exts, x.result = .ok exts →
      offset = (x.start + sumLen exts) % 2 ^ 64
        ∧ length = (x.length + (2 ^ 64 - sumLen exts % 2 ^ 64)) % 2 ^ 64) :
    Chained (FieMapLoop q fuel s b offset length extents calls).calls := by
  induction fuel generalizing s b offset length extents calls with
  | zero => cases b <;> simpa [FieMapLoop] using hch
  | succ fuel ih =>
    cases b with
    | true => simpa [FieMapLoop] using hch
    | false =>
      have hnew : ∀ r, Chained (calls ++ [⟨offset, length, r⟩]) := fun r =>
        Chained_concat calls _ hch (fun x hx exts hr => hlast rfl x hx exts hr)
      rcases hq : q s offset length with ⟨r, s'⟩
      cases r with
      | fail e => rw [FieMapLoop_fail q fuel s s' _ _ _ _ e hq]; exact hnew _
      | panic => rw [FieMapLoop, hq]; exact hnew _
      | ok exts =>
        rw [FieMapLoop_ok q fuel s s' _ _ _ _ _ ho hl hq]
        refine ih _ _ _ _ _ _ (Nat.mod_lt _ (by norm_num)) (Nat.mod_lt _ (by norm_num))
          (hnew _) ?_
        intro _ x hx exts' hr
        rw [List.getLast?_concat] at hx
        cases hx
        cases hr
        exact ⟨rfl, rfl⟩

/-- Any number of calls that return no extent leave the loop where it was. -/
theorem FieMapLoop_empty_steps {σ : Type} (q : Query σ) (st : Nat → σ) (offset length : Nat)
    (j : Nat) (hq : ∀ i, i < j → q (st i) offset length = (.ok [], st (i + 1)))
    (fuel : Nat) (extents : List Extent) (calls : List Call) :
    FieMapLoop q (fuel + j) (st 0) false offset length extents calls
      = FieMapLoop q fuel (st j) false offset length extents
          (calls ++ List.replicate j ⟨offset, length, .ok []⟩) := by
  induction j generalizing fuel with
  | zero => simp
  | succ j ih =>
    rw [show fuel + (j + 1) = fuel + 1 + j by omega,
      ih (fun i hi => hq i (Nat.lt_succ_of_lt hi)) (fuel + 1), FieMapLoop,
      hq j (Nat.lt_succ_self j)]
    simp [scanExtents, List.replicate_succ']

/-- One execution of the loop body when the call succeeds, for any offset and
length: the flag, the accumulated extents and the record of calls afterwards. -/
theorem FieMapLoop_ok_any {σ : Type} (q : Query σ) (fuel : Nat) (s s' : σ) (offset length : Nat)
    (extents exts : List Extent) (calls : List Call)
    (hq : q s offset length = (.ok exts, s')) :
    ∃ o l, FieMapLoop q (fuel + 1) s false offset length extents calls
      = FieMapLoop q fuel s' (exts.any isLast) o l (extents ++ exts)
          (calls ++ [⟨offset, length, .ok exts⟩]) := by
  have h1 := scanExtents_isEof exts false offset length
  rw [FieMapLoop, hq]
  simp only
  rcases hsc : scanExtents exts (false, offset, length) with ⟨b, o, l⟩
  rw [hsc] at h1
  simp only [Bool.false_or] at h1
  exact ⟨o, l, by rw [h1]⟩

theorem batchOf_flatten_concat (calls : List Call) (c : Call) :
    ((calls ++ [c]).map batchOf).flatten = (calls.map batchOf).flatten ++ batchOf c := by
  simp

/-- A loop that returns has ended on a batch with the last flag, on a failed
call or on a panic, and never before. -/
theorem FieMapLoop_ended {σ : Type} (q : Query σ) (fuel : Nat) (s : σ) (b : Bool)
    (offset length : Nat) (extents : List Extent) (calls : List Call) (r : Result)
    (hext : extents = (calls.map batchOf).flatten)
    (hrun : b = false → ∀ x ∈ calls, ∃ bt, x.result = .ok bt ∧ ¬ hasLast bt)
    (hend : b = true → Ended calls (.ok extents))
    (hr : (FieMapLoop q fuel s b offset length extents calls).result = some r) :
    Ended (FieMapLoop q fuel s b offset length extents calls).calls r := by
  induction fuel generalizing s b offset length extents calls with
  | zero =>
    cases b with
    | true =>
      simp only [FieMapLoop, Option.some.injEq] at hr ⊢
      rw [← hr]
      exact hend rfl
    | false => simp [FieMapLoop] at hr
  | succ fuel ih =>
    cases b with
    | true =>
      simp only [FieMapLoop, Option.some.injEq] at hr ⊢
      rw [← hr]
      exact hend rfl
    | false =>
      rcases hq : q s offset length with ⟨res, s'⟩
      cases res with
      | fail e =>
        rw [FieMapLoop_fail q fuel s s' _ _ _ _ e hq] at hr ⊢
        simp only [Option.some.injEq] at hr
        exact ⟨calls, _, rfl, hrun rfl, Or.inr (Or.inl ⟨e, rfl, hr.symm⟩)⟩
      | panic =>
        rw [FieMapLoop, hq] at hr ⊢
        simp only [Option.some.injEq] at hr
        exact ⟨calls, _, rfl, hrun rfl, Or.inr (Or.inr ⟨rfl, hr.symm⟩)⟩
      | ok exts =>
        obtain ⟨o, l, hstep⟩ := FieMapLoop_ok_any q fuel s s' offset length extents exts calls hq
        rw [hstep] at hr ⊢
        have hext' : extents ++ exts
            = ((calls ++ [(⟨offset, length, .ok exts⟩ : Call)]).map batchOf).flatten := by
          rw [batchOf_flatten_concat, ← hext]
          rfl
        refine ih s' (exts.any isLast) o l (extents ++ exts) _ hext' ?_ ?_ hr
        · intro hb x hx
          rcases List.mem_append.1 hx with hx | hx
          · exact hrun rfl x hx
          · rw [List.mem_singleton] at hx
            subst hx
            refine ⟨exts, rfl, ?_⟩
            rw [← any_isLast_iff, hb]
            simp
        · intro hb
          exact ⟨calls, _, rfl, hrun rfl,
            Or.inl ⟨exts, rfl, (any_isLast_iff exts).1 hb, by rw [hext']⟩⟩

/-- A run of `FieMap` that returns has ended on a batch with the last flag, on
a failed call or on a panic, and never before. -/
theorem FieMapWith_ended {σ : Type} (q : Query σ) (fuel : Nat) (s : σ) (offset length : Nat)
    (r : Result) (hr : (FieMapWith q fuel s offset length).result = some r) :
    Ended (FieMapWith q fuel s offset length).calls r :=
  FieMapLoop_ended q fuel s false offset _ [] [] r rfl (fun _ x hx => by simp at hx)
    (fun h => by simp at h) hr

/-- While the calls return no extent the loop has no result. -/
theorem FieMapLoop_empty_none {σ : Type} (q : Query σ) (st : Nat → σ) (offset length : Nat)
    (j : Nat) (hq : ∀ i, i < j → q (st i) offset length = (.ok [], st (i + 1)))
    (n : Nat) (hn : n ≤ j) (extents : List Extent) (calls : List Call) :
    (FieMapLoop q n (st 0) false offset length extents calls).result = none := by
  have h := FieMapLoop_empty_steps q st offset length n
    (fun i hi => hq i (Nat.lt_of_lt_of_le hi hn)) 0 extents calls
  rw [Nat.zero_add] at h
  rw [h]
  rfl

/-- While the calls are answered with batches without the last flag the run
has no result. -/
theorem FieMapWith_steps_none {σ : Type} (q : Query σ) (st : Nat → σ) (offset length : Nat)
    (batches : List (List Extent)) (ho : offset < 2 ^ 64) (hl : length < 2 ^ 64)
    (hq : Answers q st offset (firstLength length) batches batches.length)
    (hno : ∀ b ∈ batches, ¬ hasLast b) (n : Nat) (hn : n ≤ batches.length) :
    (FieMapWith q n (st 0) offset length).result = none := by
  have hno' : ∀ i, i < n → ¬ hasLast (batches.getD i []) := by
    intro i hi
    have hi' : i < batches.length := Nat.lt_of_lt_of_le hi hn
    rw [List.getD_eq_getElem?_getD, List.getElem?_eq_getElem hi']
    exact hno _ (List.getElem_mem hi')
  have hrun := FieMapLoop_steps q st offset (firstLength length) batches n
    (fun i hi => hq i (Nat.lt_of_lt_of_le hi hn)) hno' 0 [] []
  rw [startAt_zero _ _ ho, lengthAt_zero _ _ (firstLength_lt length hl), Nat.zero_add] at hrun
  unfold FieMapWith
  rw [← firstLength, hrun]
  rfl

/-- The loop runs `n` answered calls without the last flag and then one call
whose batch carries it: the whole run. -/
theorem FieMapWith_last {σ : Type} (q : Query σ) (st : Nat → σ) (offset length : Nat)
    (batches : List (List Extent)) (final : List Extent) (fuel : Nat)
    (ho : offset < 2 ^ 64) (hl : length < 2 ^ 64)
    (hq : Answers q st offset (firstLength length) (batches ++ [final]) (batches.length + 1))
    (hno : ∀ b ∈ batches, ¬ hasLast b) (hlast : hasLast final)
    (hfuel : batches.length + 1 ≤ fuel) :
    FieMapWith q fuel (st 0) offset length
      = ⟨some (.ok (batches ++ [final]).flatten),
          callsAt offset (firstLength length) (batches ++ [final]) (batches.length + 1),
          st (batches.length + 1)⟩ := by
  obtain ⟨d, rfl⟩ : ∃ d, fuel = d + 1 + batches.length := ⟨fuel - (batches.length + 1), by omega⟩
  have hl' := firstLength_lt length hl
  have hq' : Answers q st offset (firstLength length) (batches ++ [final]) batches.length :=
    fun i hi => hq i (Nat.lt_succ_of_lt hi)
  have hno' : ∀ i, i < batches.length → ¬ hasLast ((batches ++ [final]).getD i []) := by
    intro i hi
    rw [List.getD_eq_getElem?_getD, List.getElem?_append_left hi, List.getElem?_eq_getElem hi]
    exact hno _ (List.getElem_mem hi)
  have hfin : (batches ++ [final]).getD batches.length [] = final := by
    simp [List.getD_eq_getElem?_getD]
  have hstep := hq batches.length (Nat.lt_succ_self _)
  rw [hfin] at hstep
  have hrun := FieMapLoop_steps q st offset (firstLength length) (batches ++ [final])
    batches.length hq' hno' (d + 1) [] []
  rw [startAt_zero _ _ ho, lengthAt_zero _ _ hl'] at hrun
  unfold FieMapWith
  rw [← firstLength, hrun,
    FieMapLoop_ok q d _ _ _ _ _ _ _ (startAt_lt _ _ _) (lengthAt_lt _ _ _) hstep,
    (any_isLast_iff final).2 hlast, FieMapLoop_eof, callsAt_succ, hfin]
  simp

/-- The loop runs `n` answered calls without the last flag and then one call
that fails: the whole run. -/
theorem FieMapWith_fail {σ : Type} (q : Query σ) (st : Nat → σ) (s' : σ) (offset length : Nat)
    (batches : List (List Extent)) (e : Errno) (fuel : Nat)
    (ho : offset < 2 ^ 64) (hl : length < 2 ^ 64)
    (hq : Answers q st offset (firstLength length) batches batches.length)
    (hno : ∀ b ∈ batches, ¬ hasLast b)
    (hfail : q (st batches.length) (startAt offset batches batches.length)
      (lengthAt (firstLength length) batches batches.length) = (.fail e, s'))
    (hfuel : batches.length + 1 ≤ fuel) :
    FieMapWith q fuel (st 0) offset length
      = ⟨some (.fail e),
          callsAt offset (firstLength length) batches batches.length
            ++ [⟨startAt offset batches batches.length,
                 lengthAt (firstLength length) batches batches.length, .fail e⟩],
          s'⟩ := by
  obtain ⟨d, rfl⟩ : ∃ d, fuel = d + 1 + batches.length := ⟨fuel - (batches.length + 1), by omega⟩
  have hl' := firstLength_lt length hl
  have hno' : ∀ i, i < batches.length → ¬ hasLast (batches.getD i []) := by
    intro i hi
    rw [List.getD_eq_getElem?_getD, List.getElem?_eq_getElem hi]
    exact hno _ (List.getElem_mem hi)
  have hrun := FieMapLoop_steps q st offset (firstLength length) batches
    batches.length hq hno' (d + 1) [] []
  rw [startAt_zero _ _ ho, lengthAt_zero _ _ hl'] at hrun
  unfold FieMapWith
  rw [← firstLength, hrun, FieMapLoop_fail q d _ _ _ _ _ _ e hfail]
  simp

/-! ## The claims -/

/-- C1 (pagination completeness): when the first `k-1` calls of the primitive
succeed with batches none of whose extents has the last flag and call `k`
succeeds with a batch that has one, `FieMap` returns, without error, exactly
the concatenation of the `k` batches in call order. -/
theorem FieMap_pagination_complete {σ : Type} (q : Query σ) (st : Nat → σ)
    (offset length : Nat) (batches : List (List Extent)) (final : List Extent) (fuel : Nat)
    (ho : offset < 2 ^ 64) (hl : length < 2 ^ 64)
    (hq : Answers q st offset (firstLength length) (batches ++ [final]) (batches.length + 1))
    (hno : ∀ b ∈ batches, ¬ hasLast b) (hlast : hasLast final)
    (hfuel : batches.length + 1 ≤ fuel) :
    (FieMapWith q fuel (st 0) offset length).result
      = some (.ok (batches ++ [final]).flatten) := by
  rw [FieMapWith_last q st offset length batches final fuel ho hl hq hno hlast hfuel]

/-- Witness for C1: two calls, `[extA]` then `[extB]` (last flag), give `[extA, extB]`. -/
theorem FieMap_pagination_complete_witness :
    (FieMapWith twoCalls 5 0 0 0).result = some (.ok ([[extA]] ++ [[extB]]).flatten) :=
  FieMap_pagination_complete twoCalls (fun i => i) 0 0 [[extA]] [extB] 5 (by decide) (by decide)
    (by unfold Answers; decide) (by decide) (by decide) (by decide)

/-- C2 (termination on the last flag): when call `k` is the first whose batch
holds an extent with bit 0 (`FIEMAP_EXTENT_LAST`) set, whatever its other flag
bits and its place in the batch, `FieMap` makes exactly `k` calls and returns. -/
theorem FieMap_stops_at_last {σ : Type} (q : Query σ) (st : Nat → σ)
    (offset length : Nat) (batches : List (List Extent)) (final : List Extent) (fuel : Nat)
    (ho : offset < 2 ^ 64) (hl : length < 2 ^ 64)
    (hq : Answers q st offset (firstLength length) (batches ++ [final]) (batches.length + 1))
    (hno : ∀ b ∈ batches, ¬ hasLast b)
    (hlast : ∃ e ∈ final, e.Flags.testBit 0 = true)
    (hfuel : batches.length + 1 ≤ fuel) :
    (FieMapWith q fuel (st 0) offset length).calls.length = batches.length + 1
      ∧ (FieMapWith q fuel (st 0) offset length).result.isSome = true
      ∧ (FieMapWith q fuel (st 0) offset length).state = st (batches.length + 1) := by
  rw [FieMapWith_last q st offset length batches final fuel ho hl hq hno hlast hfuel]
  simp [callsAt_length]

/-- Witness for C2: the last flag sits in `extB` next to the unwritten flag. -/
theorem FieMap_stops_at_last_witness :
    (FieMapWith twoCalls 7 0 0 0).calls.length = [[extA]].length + 1
      ∧ (FieMapWith twoCalls 7 0 0 0).result.isSome = true
      ∧ (FieMapWith twoCalls 7 0 0 0).state = 2 :=
  FieMap_stops_at_last twoCalls (fun i => i) 0 0 [[extA]] [extB] 7 (by decide) (by decide)
    (by unfold Answers; decide) (by decide) (by decide) (by decide)

/-- C5 (all-or-nothing failure): when call `j` is the first to fail, with
error `e`, and no earlier batch has the last flag, `FieMap` returns `e` itself
with a nil extent slice, and the failing call is the last one it makes. -/
theorem FieMap_fails_all_or_nothing {σ : Type} (q : Query σ) (st : Nat → σ) (s' : σ)
    (offset length : Nat) (batches : List (List Extent)) (e : Errno) (fuel : Nat)
    (ho : offset < 2 ^ 64) (hl : length < 2 ^ 64)
    (hq : Answers q st offset (firstLength length) batches batches.length)
    (hno : ∀ b ∈ batches, ¬ hasLast b)
    (hfail : q (st batches.length) (startAt offset batches batches.length)
      (lengthAt (firstLength length) batches batches.length) = (.fail e, s'))
    (hfuel : batches.length + 1 ≤ fuel) :
    (FieMapWith q fuel (st 0) offset length).result = some (.fail e)
      ∧ (FieMapWith q fuel (st 0) offset length).result.map Result.err = some (some e)
      ∧ (FieMapWith q fuel (st 0) offset length).result.map Result.extents = some none
      ∧ (FieMapWith q fuel (st 0) offset length).calls.length = batches.length + 1
      ∧ (FieMapWith q fuel (st 0) offset length).calls.getLast?.map Call.result
          = some (.fail e)
      ∧ (FieMapWith q fuel (st 0) offset length).state = s' := by
  rw [FieMapWith_fail q st s' offset length batches e fuel ho hl hq hno hfail hfuel]
  simp [callsAt_length, Result.err, Result.extents]

/-- Witness for C5: `[extA]` is accumulated, then call 2 fails with errno 22. -/
theorem FieMap_fails_all_or_nothing_witness :
    (FieMapWith thenFails 4 0 0 0).result = some (.fail 22)
      ∧ (FieMapWith thenFails 4 0 0 0).result.map Result.err = some (some 22)
      ∧ (FieMapWith thenFails 4 0 0 0).result.map Result.extents = some none
      ∧ (FieMapWith thenFails 4 0 0 0).calls.length = [[extA]].length + 1
      ∧ (FieMapWith thenFails 4 0 0 0).calls.getLast?.map Call.result = some (.fail 22)
      ∧ (FieMapWith thenFails 4 0 0 0).state = 2 :=
  FieMap_fails_all_or_nothing thenFails (fun i => i) 2 0 0 [[extA]] 22 4 (by decide) (by decide)
    (by unfold Answers; decide) (by decide) rfl (by decide)

/-- C3, as the code has it: a call that returns zero extents without error
does not end the loop.  After any number `j` of such calls `FieMap` has kept
the extents accumulated so far, goes on querying with the same offset and
length, and has not returned.  A run of `FieMap` returns only after a call
whose batch holds an extent with the last flag (the result is then all the
batches in call order), after a failed call (the result is its error) or
after a panic of the primitive; every earlier call returned a batch without the
last flag. -/
theorem FieMap_zero_extents_continue {σ : Type} (q : Query σ) (st : Nat → σ)
    (offset length : Nat) (j : Nat)
    (hq : ∀ i, i < j → q (st i) offset length = (.ok [], st (i + 1)))
    (fuel : Nat) (extents : List Extent) (calls : List Call) :
    FieMapLoop q (fuel + j) (st 0) false offset length extents calls
        = FieMapLoop q fuel (st j) false offset length extents
            (calls ++ List.replicate j ⟨offset, length, .ok []⟩)
      ∧ (∀ n, n ≤ j →
          (FieMapLoop q n (st 0) false offset length extents calls).result = none)
      ∧ (∀ n s o l r, (FieMapWith q n s o l).result = some r →
          Ended (FieMapWith q n s o l).calls r) :=
  ⟨FieMapLoop_empty_steps q st offset length j hq fuel extents calls,
    fun n hn => FieMapLoop_empty_none q st offset length j hq n hn extents calls,
    fun n s o l r hr => FieMapWith_ended q n s o l r hr⟩

/-- Witness for C3 as amended: after the empty first batch of `emptyThenLast`
the loop is still running, at the same offset and length, with no result; the
run that returns `[extB]` has ended on the batch with the last flag. -/
theorem FieMap_zero_extents_continue_witness :
    FieMapLoop emptyThenLast (1 + 1) 0 false 0 FIEMAP_MAX_OFFSET [] []
        = FieMapLoop emptyThenLast 1 1 false 0 FIEMAP_MAX_OFFSET []
            ([] ++ List.replicate 1 ⟨0, FIEMAP_MAX_OFFSET, .ok []⟩)
      ∧ (FieMapLoop emptyThenLast 1 0 false 0 FIEMAP_MAX_OFFSET [] []).result = none
      ∧ Ended (FieMapWith emptyThenLast 2 0 0 0).calls (.ok [extB]) :=
  ⟨(FieMap_zero_extents_continue emptyThenLast (fun i => i) 0 FIEMAP_MAX_OFFSET 1
      (by decide) 1 [] []).1,
    (FieMap_zero_extents_continue emptyThenLast (fun i => i) 0 FIEMAP_MAX_OFFSET 1
      (by decide) 1 [] []).2.1 1 (by decide),
    (FieMap_zero_extents_continue emptyThenLast (fun i => i) 0 FIEMAP_MAX_OFFSET 1
      (by decide) 1 [] []).2.2 2 0 0 0 (.ok [extB]) (by decide)⟩

/-- C3 as stated fails.  Against a primitive that returns zero extents and no
error on every call, `FieMap` never returns: whatever the fuel, the run has no
result and has made one call per unit of fuel.  Against a primitive whose
first call returns zero extents and whose second returns `[extB]`, `FieMap`
makes two calls and returns `[extB]`, never the empty sequence. -/
theorem FieMap_empty_batch_counterexample :
    alwaysEmpty () 0 FIEMAP_MAX_OFFSET = (.ok [], ())
      ∧ (∀ fuel, (FieMapWith alwaysEmpty fuel () 0 0).result = none
          ∧ (FieMapWith alwaysEmpty fuel () 0 0).calls.length = fuel)
      ∧ emptyThenLast 0 0 FIEMAP_MAX_OFFSET = (.ok [], 1)
      ∧ (FieMapWith emptyThenLast 2 0 0 0).result = some (.ok [extB])
      ∧ (FieMapWith emptyThenLast 2 0 0 0).calls.length = 2
      ∧ ∀ fuel, (FieMapWith emptyThenLast fuel 0 0 0).result ≠ some (.ok []) := by
  refine ⟨rfl, ?_, rfl, by decide, by decide, ?_⟩
  · intro fuel
    have h := FieMapLoop_empty_steps alwaysEmpty (fun _ => ()) 0 FIEMAP_MAX_OFFSET fuel
      (fun _ _ => rfl) 0 [] []
    rw [Nat.zero_add] at h
    have h' : FieMapWith alwaysEmpty fuel () 0 0
        = FieMapLoop alwaysEmpty fuel () false 0 FIEMAP_MAX_OFFSET [] [] := rfl
    rw [h', h]
    simp [FieMapLoop]
  · intro fuel
    match fuel with
    | 0 => decide
    | 1 => decide
    | n + 2 =>
      have h := FieMapWith_last emptyThenLast (fun i => i) 0 0 [[]] [extB] (n + 2)
        (by decide) (by decide) (by unfold Answers; decide) (by decide) (by decide)
        (by simp)
      rw [h]
      decide

/-- C4 (offset/length advancement): in any run of `FieMap`, when a call made
with `(start, length)` returned the extents `exts` and another call follows,
that call is made with `start + sum` and `length - sum`, both modulo `2^64`,
where `sum` is the total of the lengths of `exts`. -/
theorem FieMap_advances {σ : Type} (q : Query σ) (fuel : Nat) (s : σ) (offset length : Nat)
    (ho : offset < 2 ^ 64) (hl : length < 2 ^ 64)
    (i : Nat) (c1 c2 : Call) (exts : List Extent)
    (h1 : (FieMapWith q fuel s offset length).calls[i]? = some c1)
    (h2 : (FieMapWith q fuel s offset length).calls[i + 1]? = some c2)
    (hr : c1.result = .ok exts) :
    c2.start = (c1.start + sumLen exts) % 2 ^ 64
      ∧ (c2.length : Int) = ((c1.length : Int) - (sumLen exts : Int)) % 2 ^ 64 := by
  have hch := FieMapLoop_chained q fuel s false offset (firstLength length) [] []
    ho (firstLength_lt length hl) Chained_nil (by intro _ x hx; simp at hx)
  obtain ⟨hs, hlen⟩ := hch i c1 c2 h1 h2 exts hr
  refine ⟨hs, ?_⟩
  rw [hlen]
  omega

/-- Witness for C4: `twoCalls` asked for `(0, 100)` returns 4096 bytes, and the
second call is made with start 4096 and the length wrapped around below zero. -/
theorem FieMap_advances_witness :
    (FieMapWith twoCalls 3 0 0 100).calls[0]? = some ⟨0, 100, .ok [extA]⟩
      ∧ (FieMapWith twoCalls 3 0 0 100).calls[0 + 1]?
          = some ⟨4096, 18446744073709547620, .ok [extB]⟩
      ∧ (4096 = (0 + sumLen [extA]) % 2 ^ 64
          ∧ ((18446744073709547620 : Nat) : Int)
              = (((100 : Nat) : Int) - (sumLen [extA] : Int)) % 2 ^ 64) :=
  ⟨by decide, by decide,
    FieMap_advances twoCalls 3 0 0 100 (by decide) (by decide) 0
      ⟨0, 100, .ok [extA]⟩ ⟨4096, 18446744073709547620, .ok [extB]⟩ [extA]
      (by decide) (by decide) rfl⟩

/-- C6 (zero length means unbounded): `FieMap(offset, 0)` makes its first
query with `(offset, 2^64-1)`, `FieMap(offset, length)` with a nonzero length
makes it with `(offset, length)`, and `FieMap(offset, 0)` runs exactly as
`FieMap(offset, 2^64-1)` does. -/
theorem FieMap_zero_length_unbounded {σ : Type} (q : Query σ) (fuel : Nat) (s : σ)
    (offset length : Nat) :
    (FieMapWith q (fuel + 1) s offset 0).calls.head?
        = some ⟨offset, 2 ^ 64 - 1, (q s offset (2 ^ 64 - 1)).1⟩
      ∧ (length ≠ 0 → (FieMapWith q (fuel + 1) s offset length).calls.head?
        = some ⟨offset, length, (q s offset length).1⟩)
      ∧ FieMapWith q fuel s offset 0 = FieMapWith q fuel s offset (2 ^ 64 - 1)
      ∧ FIEMAP_MAX_OFFSET = 2 ^ 64 - 1 := by
  refine ⟨?_, ?_, rfl, rfl⟩
  · have h := FieMapLoop_next_call q fuel s offset FIEMAP_MAX_OFFSET [] []
    rw [List.head?_eq_getElem?]
    exact h
  · intro hne
    have h := FieMapLoop_next_call q fuel s offset length [] []
    rw [List.head?_eq_getElem?]
    unfold FieMapWith
    rw [if_neg hne]
    exact h

/-- Witness for C6 at offset 512 and the nonzero length 4096. -/
theorem FieMap_zero_length_unbounded_witness :
    (4096 : Nat) ≠ 0 ∧ (FieMapWith twoCalls (1 + 1) 0 512 4096).calls.head?
        = some ⟨512, 4096, (twoCalls 0 512 4096).1⟩ :=
  ⟨by decide, (FieMap_zero_length_unbounded twoCalls 1 0 512 4096).2.1 (by decide)⟩

/-- C7, as the code has it: using up the requested length does not end the
loop.  When the batches returned so far carry no last flag and their lengths
add up to the nonzero requested length, `FieMap` has not returned and makes a
further query, with start `offset + length` (modulo `2^64`) and length 0.
The run returns only after a call whose batch holds an extent with the last
flag (the result is then all the batches in call order), after a failed call
(the result is its error) or after a panic of the primitive. -/
theorem FieMap_length_exhausted_queries_again {σ : Type} (q : Query σ) (st : Nat → σ)
    (offset length : Nat) (batches : List (List Extent)) (fuel : Nat)
    (ho : offset < 2 ^ 64) (hl : length < 2 ^ 64) (hpos : length ≠ 0)
    (hq : Answers q st offset length batches batches.length)
    (hno : ∀ b ∈ batches, ¬ hasLast b)
    (hsum : sumLen batches.flatten = length) :
    (FieMapWith q (fuel + 1 + batches.length) (st 0) offset length).calls[batches.length]?
        = some ⟨(offset + length) % 2 ^ 64, 0,
            (q (st batches.length) ((offset + length) % 2 ^ 64) 0).1⟩
      ∧ (∀ n, n ≤ batches.length → (FieMapWith q n (st 0) offset length).result = none)
      ∧ (∀ n r, (FieMapWith q n (st 0) offset length).result = some r →
          Ended (FieMapWith q n (st 0) offset length).calls r) := by
  have hfirst : firstLength length = length := if_neg hpos
  refine ⟨?_, ?_, fun n r hr => FieMapWith_ended q n (st 0) offset length r hr⟩
  · have hno' : ∀ i, i < batches.length → ¬ hasLast (batches.getD i []) := by
      intro i hi
      rw [List.getD_eq_getElem?_getD, List.getElem?_eq_getElem hi]
      exact hno _ (List.getElem_mem hi)
    have hrun := FieMapLoop_steps q st offset length batches batches.length hq hno'
      (fuel + 1) [] []
    rw [startAt_zero _ _ ho, lengthAt_zero _ _ hl] at hrun
    have hs : startAt offset batches batches.length = (offset + length) % 2 ^ 64 := by
      rw [startAt, List.take_length, hsum]
    have hz : lengthAt length batches batches.length = 0 := by
      rw [lengthAt, List.take_length, hsum]
      omega
    unfold FieMapWith
    rw [if_neg hpos, hrun, hs, hz]
    have h := FieMapLoop_next_call q fuel (st batches.length) ((offset + length) % 2 ^ 64) 0
      ([] ++ (batches.take batches.length).flatten)
      ([] ++ callsAt offset length batches batches.length)
    simpa [callsAt_length] using h
  · intro n hn
    exact FieMapWith_steps_none q st offset length batches ho hl (by rw [hfirst]; exact hq)
      hno n hn

/-- Witness for C7 as amended: `twoCalls` asked for 4096 bytes returns them in
its first batch; the run has no result then and queries again, with
`(4096, 0)`; it returns `[extA, extB]` on the batch with the last flag. -/
theorem FieMap_length_exhausted_queries_again_witness :
    (FieMapWith twoCalls (0 + 1 + [[extA]].length) 0 0 4096).calls[[[extA]].length]?
        = some ⟨(0 + 4096) % 2 ^ 64, 0, (twoCalls 1 ((0 + 4096) % 2 ^ 64) 0).1⟩
      ∧ (FieMapWith twoCalls 1 0 0 4096).result = none
      ∧ Ended (FieMapWith twoCalls 2 0 0 4096).calls (.ok [extA, extB]) :=
  ⟨(FieMap_length_exhausted_queries_again twoCalls (fun i => i) 0 4096 [[extA]] 0
      (by decide) (by decide) (by decide) (by unfold Answers; decide) (by decide)
      (by decide)).1,
    (FieMap_length_exhausted_queries_again twoCalls (fun i => i) 0 4096 [[extA]] 0
      (by decide) (by decide) (by decide) (by unfold Answers; decide) (by decide)
      (by decide)).2.1 1 (by decide),
    (FieMap_length_exhausted_queries_again twoCalls (fun i => i) 0 4096 [[extA]] 0
      (by decide) (by decide) (by decide) (by unfold Answers; decide) (by decide)
      (by decide)).2.2 2 (.ok [extA, extB]) (by decide)⟩

/-- C7 as stated fails.  `twoCalls` asked for `(0, 4096)` returns `[extA]`, of
length 4096 and without the last flag, so the remaining length is 0; `FieMap`
still makes a second query, with `(4096, 0)`, and returns `[extA, extB]`. -/
theorem FieMap_length_exhausted_counterexample :
    twoCalls 0 0 4096 = (.ok [extA], 1) ∧ sumLen [extA] = 4096 ∧ ¬ hasLast [extA]
      ∧ (FieMapWith twoCalls 2 0 0 4096).calls
          = [⟨0, 4096, .ok [extA]⟩, ⟨4096, 0, .ok [extB]⟩]
      ∧ (FieMapWith twoCalls 2 0 0 4096).result = some (.ok [extA, extB])
      ∧ ∀ fuel, (FieMapWith twoCalls fuel 0 0 4096).result ≠ some (.ok [extA]) := by
  refine ⟨rfl, by decide, by decide, by decide, by decide, ?_⟩
  intro fuel
  match fuel with
  | 0 => decide
  | 1 => decide
  | n + 2 =>
    have h := FieMapWith_last twoCalls (fun i => i) 0 4096 [[extA]] [extB] (n + 2)
      (by decide) (by decide) (by unfold Answers; decide) (by decide) (by decide)
      (by simp)
    rw [h]
    decide

/-- C8 (overlay slot discard): `fiemap` hands the kernel a buffer of 250+1
slots; when the kernel succeeds and reports `m ≤ 250` mapped extents, the
result has length `m` and its element `i` is slot `i+1` of the buffer (the slots
`[1, 1+m)`, never slot 0); when the kernel fails, the error is returned with
a nil extent slice. -/
theorem fiemap_overlay_slot_discard {σ : Type} (ioctl : Ioctl σ) (f : FiemapFile) (s s' : σ)
    (start length : Nat) (err : Errno) (extBuf : ExtBuf) (m : Nat)
    (hk : ioctl s f.Fd FS_IOC_FIEMAP (requestBuf start length) = (err, extBuf, s')) :
    (requestBuf start length).1.length = 250 + 1
      ∧ (err = 0 → (headerOf extBuf).MappedExtents = m → m ≤ 250 →
          ∃ exts, f.fiemap ioctl s start length = (.ok exts, s')
            ∧ exts.length = m
            ∧ exts = (extBuf.1.drop 1).take m
            ∧ ∀ i, i < m → exts[i]? = extBuf.1[i + 1]?)
      ∧ (err ≠ 0 → f.fiemap ioctl s start length = (.fail err, s')
          ∧ (f.fiemap ioctl s start length).1.extents = none) := by
  refine ⟨(requestBuf start length).2, ?_, ?_⟩
  · intro he hm hle
    have hhigh : u32add 1 (headerOf extBuf).MappedExtents = m + 1 := by
      rw [hm]
      unfold u32add
      omega
    have hlen : extBuf.1.length = 251 := extBuf.2
    refine ⟨(extBuf.1.drop 1).take m, ?_, ?_, rfl, ?_⟩
    · unfold FiemapFile.fiemap
      rw [hk]
      simp only [he, ne_eq, not_true_eq_false, if_false, sliceResult, hhigh, numExts]
      rw [if_pos (by omega)]
      rfl
    · rw [List.length_take, List.length_drop]
      omega
    · intro i hi
      rw [List.getElem?_take_of_lt hi, List.getElem?_drop]
      congr 1
      omega
  · intro he
    have hf : f.fiemap ioctl s start length = (.fail err, s') := by
      unfold FiemapFile.fiemap
      rw [hk]
      simp only [he, ne_eq, not_false_eq_true, if_true]
    exact ⟨hf, by rw [hf]; rfl⟩

/-- Witness for C8: the kernel `threeExtents` writes three extents to slots
1, 2 and 3 and a marker to slot 0, and `fiemap` returns exactly the three;
the kernel `notSupported` fails and `fiemap` returns errno 25 and no extents. -/
theorem fiemap_overlay_slot_discard_witness :
    (∃ exts, FiemapFile.fiemap threeExtents ⟨3⟩ () 0 4096 = (.ok exts, ())
        ∧ exts.length = 3
        ∧ exts = ((threeExtents () 3 FS_IOC_FIEMAP (requestBuf 0 4096)).2.1.1.drop 1).take 3
        ∧ ∀ i, i < 3 → exts[i]?
            = (threeExtents () 3 FS_IOC_FIEMAP (requestBuf 0 4096)).2.1.1[i + 1]?)
      ∧ FiemapFile.fiemap threeExtents ⟨3⟩ () 0 4096 = (.ok [extA, extB, extC], ())
      ∧ FiemapFile.fiemap notSupported ⟨3⟩ () 0 4096 = (.fail 25, ()) :=
  ⟨(fiemap_overlay_slot_discard threeExtents ⟨3⟩ () () 0 4096 0 _ 3 rfl).2.1 rfl rfl (by decide),
    rfl,
    ((fiemap_overlay_slot_discard notSupported ⟨3⟩ () () 0 4096 25 _ 0 rfl).2.2 (by decide)).1⟩

/-- C9 (range-mutator flag selection): `PunchHole` calls the host `fallocate`
with mode `FALLOC_FL_KEEP_SIZE | FALLOC_FL_PUNCH_HOLE`, which is 3 (bits
`0x01` and `0x02` and no other bit of the 32), and `Fallocate` calls it with
mode 0; each passes the descriptor as `int(f.Fd())` and the offset and length
as they are, and returns what the host returns. -/
theorem range_mutators_flags {σ : Type} (sys : FallocateSys σ) (f : FiemapFile) (s : σ)
    (offset length : Int) :
    f.PunchHole sys s offset length = sys s (uintptrToInt f.Fd) 0x03 offset length
      ∧ f.Fallocate sys s offset length = sys s (uintptrToInt f.Fd) 0 offset length
      ∧ FALLOC_FL_KEEP_SIZE ||| FALLOC_FL_PUNCH_HOLE = 0x03
      ∧ (FALLOC_FL_KEEP_SIZE ||| FALLOC_FL_PUNCH_HOLE) &&& 0x01 = 0x01
      ∧ (FALLOC_FL_KEEP_SIZE ||| FALLOC_FL_PUNCH_HOLE) &&& 0x02 = 0x02
      ∧ (FALLOC_FL_KEEP_SIZE ||| FALLOC_FL_PUNCH_HOLE) &&& (2 ^ 32 - 1 - 0x03) = 0
      ∧ FiemapFile.PunchHole recordFallocate ⟨5⟩ [] 4096 8192 = (none, [(5, 3, 4096, 8192)])
      ∧ FiemapFile.Fallocate recordFallocate ⟨5⟩ [] 4096 8192
          = (none, [(5, 0, 4096, 8192)])
      ∧ FiemapFile.PunchHole recordFallocate ⟨2 ^ 64 - 1⟩ [] 4096 8192
          = (none, [(-1, 3, 4096, 8192)])
      ∧ FiemapFile.Fallocate recordFallocate ⟨2 ^ 64 - 1⟩ [] 4096 8192
          = (none, [(-1, 0, 4096, 8192)]) := by
  refine ⟨rfl, rfl, by decide, by decide, by decide, by decide, by decide, by decide,
    by decide, by decide⟩

/-- C10 (header/extent overlay layout): `FiemapSize` is 32, the sum of the
header field widths 8+8+4+4+4+4, and `ExtentSize` is 56, the sum of the extent
field widths 8+8+8+2*8+4+3*4, both without padding; the header sits at byte
`ExtentSize - FiemapSize = 24` of the buffer, inside slot 0, and ends at byte
56 where slot 1 begins; the 250 requested extents after it fill slots 1 to 250
of the 251-slot buffer exactly. -/
theorem overlay_layout :
    FiemapSize = 32
      ∧ fiemapFields.map GoType.size = [8, 8, 4, 4, 4, 4]
      ∧ (fiemapFields.map GoType.size).sum = FiemapSize
      ∧ structSize fiemapFields = FiemapSize
      ∧ ExtentSize = 56
      ∧ extentFields.map GoType.size = [8, 8, 8, 2 * 8, 4, 3 * 4]
      ∧ (extentFields.map GoType.size).sum = ExtentSize
      ∧ structSize extentFields = ExtentSize
      ∧ headerOffset = 24
      ∧ headerOffset + FiemapSize ≤ ExtentSize
      ∧ headerOffset + FiemapSize = 1 * ExtentSize
      ∧ headerOffset + FiemapSize + numExts * ExtentSize = (numExts + 1) * ExtentSize
      ∧ numExts = 250
      ∧ (∀ start length, (requestBuf start length).1.length = 251)
      ∧ (fieldOffsets 0 fiemapFields).map (fun o => headerOffset + o)
          = [24, 32, 40, 44, 48, 52]
      ∧ fieldOffsets 0 extentFields = [0, 8, 16, 24, 40, 44] := by
  refine ⟨rfl, by decide, by decide, by decide, rfl, by decide, by decide, by decide,
    by decide, by decide, by decide, by decide, rfl, fun a b => (requestBuf a b).2,
    by decide, by decide⟩

end Fiemap
